import Mathlib

/-!
Verification development for the doc-chat retrieval-augmented chat backend.

This file embeds the incremental indexing engine (`backend/indexer.py`,
class `DocumentIndexer`) and the retrieval engine (`backend/retriever.py`,
class `DocumentRetriever`) as executable Lean definitions and proves the
specified properties about them.

Modelling conventions:
- Embedding vectors are lists of integers; the embedding model
  (`SentenceTransformer.encode`) is an abstract parameter.  FAISS
  `IndexFlatL2` is modelled by its contents (the list of stored vectors)
  together with `faissSearch`, which returns index/distance pairs sorted
  by ascending (squared) L2 distance — exactly the contract of
  `index.search(query_vector, k)`.
- Python dicts (`self.file_hashes`) are association lists in insertion
  order; `dict.get` is `lookupHash`, `dict[k] = v` is `dictSet`,
  `del dict[k]` is `List.eraseP`.
- The pickle/FAISS artifacts on disk are a `Disk` record of four
  optional payloads; `open` on a missing file is modelled by `Option`.
- Out-of-range positional indexing (which would raise `IndexError` in
  Python) is modelled with `List.getD`; the retrieval loop guards every
  access with `idx < len(self.metadata)` as the source does.
-/

namespace DocChat

/-- Per-chunk metadata dictionary created in
`DocumentIndexer._process_single_file`. -/
structure ChunkMetadata where
  file_path : String
  file_name : String
  chunk_index : Nat
  hash : String
  extension : String
  deleted : Bool
deriving DecidableEq, Repr, Inhabited

/-- One document chunk as accumulated during a scan: the chunk text plus
its metadata dictionary. -/
structure Document where
  text : String
  metadata : ChunkMetadata
deriving DecidableEq, Repr, Inhabited

/-- In-memory state of `DocumentIndexer`: the FAISS index contents, the
parallel metadata and texts arrays, and the file-hash record. -/
structure IndexerState where
  index : List (List Int)
  metadata : List ChunkMetadata
  texts : List String
  file_hashes : List (String × String)
deriving DecidableEq, Repr, Inhabited

/-- In-memory state of `DocumentRetriever`: `self.index` is `None` when no
index artifact was found on disk. -/
structure RetrieverState where
  index : Option (List (List Int))
  metadata : List ChunkMetadata
  texts : List String
deriving DecidableEq, Repr, Inhabited

/-- The four persisted artifacts under the store directory:
`index.faiss`, `metadata.pkl`, `texts.pkl`, `file_hashes.pkl`.
`none` means the file does not exist. -/
structure Disk where
  index_file : Option (List (List Int))
  metadata_file : Option (List ChunkMetadata)
  texts_file : Option (List String)
  file_hashes_file : Option (List (String × String))
deriving DecidableEq, Repr, Inhabited

/-- Per-run statistics dictionary built in `index_directory`. -/
structure RunStats where
  files : Nat
  chunks : Nat
  new : Nat
  modified : Nat
  unchanged : Nat
  deleted : Nat
deriving DecidableEq, Repr, Inhabited

/-- Result entry returned by `DocumentRetriever.search`. -/
structure SearchResult where
  text : String
  metadata : ChunkMetadata
  score : Int
deriving DecidableEq, Repr, Inhabited

/-- Dictionary lookup `d.get(k)` on an association list. -/
def lookupHash (d : List (String × String)) (k : String) : Option String :=
  match d with
  | [] => none
  | kv :: rest => if kv.1 = k then some kv.2 else lookupHash rest k

/-- Dictionary update `d[k] = v`: replace in place if the key exists,
otherwise append (Python dicts keep insertion order). -/
def dictSet (d : List (String × String)) (k v : String) : List (String × String) :=
  if d.any (fun kv => kv.1 = k) then
    d.map (fun kv => if kv.1 = k then (k, v) else kv)
  else
    d ++ [(k, v)]

/-- Dictionary deletion `del d[k]`: remove the entry with key `k`
(the first one — a dict holds at most one). -/
def delKey (d : List (String × String)) (k : String) : List (String × String) :=
  match d with
  | [] => []
  | kv :: rest => if kv.1 = k then rest else kv :: delKey rest k

/-- Number of entries with key `k` (0 or 1 for a well-formed dict). -/
def keyCount (d : List (String × String)) (k : String) : Nat :=
  d.countP (fun kv => kv.1 = k)

/-- The falsiness test `not content.strip()` used by the scan loop:
true iff the content is empty or whitespace-only. -/
def isBlank (content : String) : Bool :=
  content.data.all Char.isWhitespace

/-- Model of `DocumentIndexer._get_existing_hash`. -/
def getExistingHash (s : IndexerState) (path : String) : Option String :=
  lookupHash s.file_hashes path

/-- Body of the loop in `DocumentIndexer._mark_file_chunks_deleted`:
set `deleted` on a metadata entry whose `file_path` matches and which is
not already deleted. -/
def markChunkDeleted (path : String) (m : ChunkMetadata) : ChunkMetadata :=
  if m.file_path = path ∧ ¬ m.deleted then { m with deleted := true } else m

/-- Model of `DocumentIndexer._mark_file_chunks_deleted` acting on the metadata
array. -/
def markFileChunksDeleted (md : List ChunkMetadata) (path : String) :
    List ChunkMetadata :=
  md.map (markChunkDeleted path)

/-- Model of `DocumentIndexer._get_file_status`: classify a file from its stored
hash and mark stale chunks deleted in the `modified` branch.  Returns
`((status, should_skip), new state)`. -/
def getFileStatus (s : IndexerState) (path : String) (fileHash : String) :
    (String × Bool) × IndexerState :=
  match getExistingHash s path with
  | none => (("new", false), s)
  | some existing =>
    if existing ≠ fileHash then
      (("modified", false),
       { s with metadata := markFileChunksDeleted s.metadata path })
    else
      (("unchanged", true), s)

/-- Model of `DocumentIndexer._process_single_file`: split the content into chunks
(the text splitter is the abstract parameter `split`), build one document
per chunk, and record the file's hash. -/
def processSingleFile (split : String → List String) (s : IndexerState)
    (path name ext content fileHash : String) :
    List Document × IndexerState :=
  let chunks := split content
  let documents := chunks.enum.map (fun p =>
    { text := p.2,
      metadata :=
        { file_path := path
          file_name := name
          chunk_index := p.1
          hash := fileHash
          extension := ext
          deleted := false } })
  (documents, { s with file_hashes := dictSet s.file_hashes path fileHash })

/-- Loop of `DocumentIndexer._process_deleted_files`: iterate over a
snapshot of the hash-record keys; every key absent from `current_files`
has its chunks marked deleted, its hash entry removed, and bumps the
counter. -/
def processDeletedLoop (keys : List String) (current : List String)
    (s : IndexerState) (count : Nat) : IndexerState × Nat :=
  match keys with
  | [] => (s, count)
  | k :: rest =>
    if current.contains k then
      processDeletedLoop rest current s count
    else
      processDeletedLoop rest current
        { s with
          metadata := markFileChunksDeleted s.metadata k
          file_hashes := delKey s.file_hashes k }
        (count + 1)

/-- Model of `DocumentIndexer._process_deleted_files`. -/
def processDeletedFiles (s : IndexerState) (current : List String) :
    IndexerState × Nat :=
  processDeletedLoop (s.file_hashes.map Prod.fst) current s 0

/-- Split a list into consecutive batches of size `bs`, as the loop
`for i in range(0, total, batch_size)` does (`bs` is positive in the
source: it comes from `DEFAULT_BATCH_SIZE`/`CPU_BATCH_SIZE`). -/
def chunkList (bs : Nat) : List String → List (List String)
  | [] => []
  | x :: xs => (x :: xs.take (bs - 1)) :: chunkList bs (xs.drop (bs - 1))
termination_by l => l.length
decreasing_by simp [List.length_drop]; omega

/-- Model of `DocumentIndexer._encode_in_batches` (single-process path): encode
batch by batch with the abstract model `encodeBatch` and stack the
results. -/
def encodeInBatches (encodeBatch : List String → List (List Int))
    (bs : Nat) (texts : List String) : List (List Int) :=
  ((chunkList bs texts).map encodeBatch).flatten

/-- Model of `DocumentIndexer._save`: write all four artifacts. -/
def saveState (s : IndexerState) : Disk :=
  { index_file := some s.index
    metadata_file := some s.metadata
    texts_file := some s.texts
    file_hashes_file := some s.file_hashes }

/-- Model of `DocumentIndexer._add_documents_to_index`: no-op on an empty batch;
otherwise embed the texts, grow the index, metadata and texts stores,
and persist via `_save`. -/
def addDocumentsToIndex (encodeBatch : List String → List (List Int))
    (bs : Nat) (s : IndexerState) (d : Disk) (docs : List Document) :
    IndexerState × Disk :=
  if docs.isEmpty then (s, d)
  else
    let texts := docs.map Document.text
    let embeddings := encodeInBatches encodeBatch bs texts
    let s2 :=
      { s with
        index := s.index ++ embeddings
        metadata := s.metadata ++ docs.map Document.metadata
        texts := s.texts ++ texts }
    (s2, saveState s2)

/-- Loading in `DocumentIndexer.__init__`: the FAISS index, metadata and
texts are read when `index.faiss` exists (reading then fails if either
pickle is missing); otherwise they start empty.  The hash record is
loaded in a separate `if` keyed on its own file. -/
def loadIndexer (d : Disk) : Option IndexerState :=
  match d.index_file with
  | some idx =>
    match d.metadata_file, d.texts_file with
    | some md, some ts =>
      some { index := idx, metadata := md, texts := ts,
             file_hashes := d.file_hashes_file.getD [] }
    | _, _ => none
  | none =>
    some { index := [], metadata := [], texts := [],
           file_hashes := d.file_hashes_file.getD [] }

/-- Model of `DocumentRetriever._load_index`: load the three retrieval artifacts
when the index exists; otherwise `self.index = None` with empty arrays. -/
def loadRetriever (d : Disk) : Option RetrieverState :=
  match d.index_file with
  | some idx =>
    match d.metadata_file, d.texts_file with
    | some md, some ts => some { index := some idx, metadata := md, texts := ts }
    | _, _ => none
  | none => some { index := none, metadata := [], texts := [] }

/-- Squared L2 distance between two vectors, the ranking key of FAISS
`IndexFlatL2`. -/
def sqDistL2 (u v : List Int) : Int :=
  ((u.zip v).map (fun p => (p.1 - p.2) * (p.1 - p.2))).sum

/-- Ordering of search candidates by ascending distance. -/
def distLE (a b : Nat × Int) : Prop := a.2 ≤ b.2

instance : DecidableRel distLE := fun a b => inferInstanceAs (Decidable (a.2 ≤ b.2))

instance : IsTotal (Nat × Int) distLE := ⟨fun a b => le_total a.2 b.2⟩

instance : IsTrans (Nat × Int) distLE := ⟨fun _ _ _ hab hbc => le_trans hab hbc⟩

/-- Model of `index.search(query_vector, k)` on `IndexFlatL2`: pair every stored
position with its distance to the query, sort ascending by distance, and
return the first `k` pairs. -/
def faissSearch (vecs : List (List Int)) (q : List Int) (k : Nat) :
    List (Nat × Int) :=
  (((List.range vecs.length).map (fun i => (i, sqDistL2 q (vecs.getD i [])))).insertionSort
    distLE).take k

/-- Result-collection loop of `DocumentRetriever.search`: walk the
candidates, keep entries with a valid index and `deleted` unset, stop as
soon as `top_k` results are collected. -/
def collectSources (md : List ChunkMetadata) (texts : List String)
    (topK : Nat) : List (Nat × Int) → List SearchResult → List SearchResult
  | [], acc => acc
  | (idx, dist) :: rest, acc =>
    if idx < md.length then
      if (md.getD idx default).deleted then collectSources md texts topK rest acc
      else
        if topK ≤ (acc ++ [({ text := texts.getD idx "", metadata := md.getD idx default, score := dist } : SearchResult)]).length then
          acc ++ [({ text := texts.getD idx "", metadata := md.getD idx default, score := dist } : SearchResult)]
        else
          collectSources md texts topK rest (acc ++ [({ text := texts.getD idx "", metadata := md.getD idx default, score := dist } : SearchResult)])
    else collectSources md texts topK rest acc

/-- Model of `DocumentRetriever.search`: empty on an uninitialized store; else
embed the query, over-fetch `min(top_k * 3, ntotal)` neighbours and
filter. -/
def searchR (encode : String → List Int) (s : RetrieverState)
    (query : String) (topK : Nat) : List SearchResult :=
  match s.index with
  | none => []
  | some vecs =>
    let q := encode query
    let searchK := topK * 3
    collectSources s.metadata s.texts topK
      (faissSearch vecs q (min searchK vecs.length)) []

/-- Active-chunk count of `DocumentIndexer.get_stats`:
`sum(1 for m in self.metadata if not m.get('deleted', False))`. -/
def activeCount (md : List ChunkMetadata) : Nat :=
  md.countP (fun m => ¬ m.deleted)

/-- Model of `DocumentIndexer.get_stats`. -/
def getStats (s : IndexerState) : Nat × Nat :=
  (activeCount s.metadata, 384)

/-- Model of the update `stats[file_status] += 1` for the classification returned by
`_get_file_status`. -/
def bumpStatus (st : RunStats) (status : String) : RunStats :=
  if status = "new" then { st with new := st.new + 1 }
  else if status = "modified" then { st with modified := st.modified + 1 }
  else if status = "unchanged" then { st with unchanged := st.unchanged + 1 }
  else st

/-- One iteration of the file loop in
`DocumentIndexer._scan_and_process_files` for an eligible, readable
file: record the path in `current_files`, skip empty/whitespace-only
content before hashing and classification, otherwise classify, count,
and (unless skipped) chunk the file. -/
def scanFile (split : String → List String) (hashFn : String → String)
    (s : IndexerState) (currentFiles : List String) (stats : RunStats)
    (path name ext content : String) :
    IndexerState × List String × RunStats × List Document :=
  let currentFiles2 := currentFiles ++ [path]
  if isBlank content then (s, currentFiles2, stats, [])
  else
    let fileHash := hashFn content
    let r := getFileStatus s path fileHash
    let stats2 := bumpStatus stats r.1.1
    if r.1.2 then (r.2, currentFiles2, stats2, [])
    else
      let pr := processSingleFile split r.2 path name ext content fileHash
      let stats3 :=
        { stats2 with
          files := stats2.files + 1
          chunks := stats2.chunks + pr.1.length }
      (pr.2, currentFiles2, stats3, pr.1)

/-- The alignment invariant of the store: the vector index, metadata
array and texts array have equal lengths. -/
def aligned (s : IndexerState) : Prop :=
  s.index.length = s.metadata.length ∧ s.metadata.length = s.texts.length

/-- Candidate filter applied by the collection loop of
`DocumentRetriever.search`: the FAISS position is in range of the
metadata array and the entry is not soft-deleted. -/
def keepCand (md : List ChunkMetadata) (c : Nat × Int) : Prop :=
  c.1 < md.length ∧ (md.getD c.1 default).deleted = false

instance (md : List ChunkMetadata) (c : Nat × Int) : Decidable (keepCand md c) :=
  inferInstanceAs (Decidable (_ ∧ _))

/-- Build the result record `search` returns for an accepted candidate. -/
def mkResult (md : List ChunkMetadata) (texts : List String)
    (c : Nat × Int) : SearchResult :=
  { text := texts.getD c.1 "", metadata := md.getD c.1 default, score := c.2 }

/-! ### Concrete fixtures for closed-form checks -/

/-- A trivial embedding model: every text maps to the vector `[0]`. -/
def encZero : String → List Int := fun _ => [0]

/-- A trivial batch encoder honouring the one-vector-per-text contract. -/
def encBatchZero : List String → List (List Int) := fun ts => ts.map (fun _ => [0])

/-- A soft-deleted chunk for file `p`. -/
def mdDel : ChunkMetadata :=
  { file_path := "p", file_name := "n", chunk_index := 0, hash := "h",
    extension := ".md", deleted := true }

/-- A live chunk for file `p`. -/
def mdLive : ChunkMetadata :=
  { file_path := "p", file_name := "n", chunk_index := 1, hash := "h",
    extension := ".md", deleted := false }

/-- A two-vector retriever store whose first entry is soft-deleted. -/
def storeTwo : RetrieverState :=
  { index := some [[0], [1]], metadata := [mdDel, mdLive], texts := ["a", "b"] }

/-- A batch encoder violating the one-vector-per-text contract: it
returns one extra vector. -/
def encBatchExtra : List String → List (List Int) :=
  fun ts => ts.map (fun _ => [0]) ++ [[0]]

/-! ### Helper lemmas about the retrieval loop -/

theorem collectSources_cons (md : List ChunkMetadata) (texts : List String)
    (topK idx : Nat) (dist : Int) (rest : List (Nat × Int))
    (acc : List SearchResult) :
    collectSources md texts topK ((idx, dist) :: rest) acc =
      if idx < md.length then
        if (md.getD idx default).deleted then collectSources md texts topK rest acc
        else
          if topK ≤ acc.length + 1 then acc ++ [mkResult md texts (idx, dist)]
          else collectSources md texts topK rest (acc ++ [mkResult md texts (idx, dist)])
      else collectSources md texts topK rest acc := by
  simp only [collectSources, mkResult, List.length_append, List.length_singleton]

theorem collectSources_eq (md : List ChunkMetadata) (texts : List String)
    (topK : Nat) :
    ∀ (cands : List (Nat × Int)) (acc : List SearchResult),
      acc.length < topK →
      collectSources md texts topK cands acc =
        acc ++ ((cands.filter (fun c => decide (keepCand md c))).take
          (topK - acc.length)).map (mkResult md texts)
  | [], acc, _ => by simp [collectSources]
  | (idx, dist) :: rest, acc, hlt => by
    rw [collectSources_cons]
    by_cases hidx : idx < md.length
    · rw [if_pos hidx]
      cases hdel : (md.getD idx default).deleted with
      | true =>
        have hkeep : decide (keepCand md (idx, dist)) = false :=
          decide_eq_false (fun hk => absurd (hdel.symm.trans hk.2) (by decide))
        rw [if_pos rfl, collectSources_eq md texts topK rest acc hlt,
          List.filter_cons]
        simp [hkeep]
      | false =>
        have hkeep : decide (keepCand md (idx, dist)) = true :=
          decide_eq_true ⟨hidx, hdel⟩
        rw [if_neg (by decide : ¬(false = true)), List.filter_cons]
        simp only [hkeep, if_true]
        by_cases hstop : topK ≤ acc.length + 1
        · have hone : topK - acc.length = 1 := by omega
          rw [if_pos hstop, hone, List.take_succ_cons, List.take_zero]
          simp
        · rw [if_neg hstop,
            collectSources_eq md texts topK rest _
              (by simp only [List.length_append, List.length_singleton]; omega)]
          have htake : topK - acc.length = (topK - (acc.length + 1)) + 1 := by omega
          rw [htake, List.take_succ_cons]
          simp [List.length_append]
    · have hkeep : decide (keepCand md (idx, dist)) = false :=
        decide_eq_false (fun hk => hidx hk.1)
      rw [if_neg hidx, collectSources_eq md texts topK rest acc hlt,
        List.filter_cons]
      simp [hkeep]

/-- The retrieval pipeline as filter-then-take over the sorted candidate
list: this is the exact behaviour of the result loop in
`DocumentRetriever.search`. -/
theorem searchR_eq (encode : String → List Int) (s : RetrieverState)
    (query : String) (topK : Nat) (vecs : List (List Int))
    (h : s.index = some vecs) :
    searchR encode s query topK =
      (((faissSearch vecs (encode query) (min (topK * 3) vecs.length)).filter
        (fun c => decide (keepCand s.metadata c))).take topK).map
          (mkResult s.metadata s.texts) := by
  rcases Nat.eq_zero_or_pos topK with h0 | hpos
  · subst h0
    simp [searchR, h, faissSearch, collectSources]
  · have hmain := collectSources_eq s.metadata s.texts topK
      (faissSearch vecs (encode query) (min (topK * 3) vecs.length)) []
      (by simpa using hpos)
    simp only [searchR, h]
    rw [hmain]
    simp

theorem faissSearch_length (vecs : List (List Int)) (q : List Int) (k : Nat) :
    (faissSearch vecs q k).length = min k vecs.length := by
  unfold faissSearch
  rw [List.length_take, (List.perm_insertionSort distLE _).length_eq]
  simp

theorem faissSearch_sorted (vecs : List (List Int)) (q : List Int) (k : Nat) :
    List.Sorted distLE (faissSearch vecs q k) :=
  List.Pairwise.sublist (List.take_sublist _ _)
    (List.sorted_insertionSort distLE _)

theorem faissSearch_mem (vecs : List (List Int)) (q : List Int) (k : Nat)
    (c : Nat × Int) (hc : c ∈ faissSearch vecs q k) :
    c.1 < vecs.length ∧ c.2 = sqDistL2 q (vecs.getD c.1 []) := by
  have h1 : c ∈ ((List.range vecs.length).map
      (fun i => (i, sqDistL2 q (vecs.getD i [])))) := by
    have h2 := (List.take_sublist k _).subset hc
    exact ((List.perm_insertionSort distLE _).mem_iff).mp h2
  rcases List.mem_map.mp h1 with ⟨i, hi, hci⟩
  subst hci
  exact ⟨List.mem_range.mp hi, rfl⟩

theorem mem_searchR_keepCand (encode : String → List Int)
    (s : RetrieverState) (query : String) (topK : Nat)
    (vecs : List (List Int)) (hidx : s.index = some vecs)
    (r : SearchResult) (hr : r ∈ searchR encode s query topK) :
    ∃ c, c ∈ faissSearch vecs (encode query) (min (topK * 3) vecs.length) ∧
      keepCand s.metadata c ∧ r = mkResult s.metadata s.texts c := by
  rw [searchR_eq encode s query topK vecs hidx] at hr
  rcases List.mem_map.mp hr with ⟨c, hc, hrc⟩
  have hfil := (List.take_sublist topK _).subset hc
  have hmf := List.mem_filter.mp hfil
  exact ⟨c, hmf.1, of_decide_eq_true hmf.2, hrc.symm⟩

/-- C2: search never returns a soft-deleted entry, and the active-chunk
count of `get_stats` never counts a soft-deleted entry. -/
theorem deleted_excluded_from_search_and_stats
    (encode : String → List Int) (s : RetrieverState) (query : String)
    (topK : Nat) (idx : List (List Int)) (texts : List String)
    (hashes : List (String × String)) (pre post : List ChunkMetadata)
    (m : ChunkMetadata) :
    (∀ r ∈ searchR encode s query topK, r.metadata.deleted = false) ∧
    (m.deleted = true →
      getStats ⟨idx, pre ++ m :: post, texts, hashes⟩ =
        getStats ⟨idx, pre ++ post, texts, hashes⟩) := by
  constructor
  · intro r hr
    cases hidx : s.index with
    | none => simp [searchR, hidx] at hr
    | some vecs =>
      rcases mem_searchR_keepCand encode s query topK vecs hidx r hr with
        ⟨c, _, hkeep, hrc⟩
      rw [hrc]
      exact hkeep.2
  · intro hdel
    simp [getStats, activeCount, List.countP_append, List.countP_cons, hdel]

/-- Closed witness for C2 at a concrete two-chunk store. -/
theorem deleted_excluded_witness :
    ({ text := "b", metadata := mdLive, score := 1 } : SearchResult).metadata.deleted = false ∧
    getStats ⟨[], [mdDel], [], []⟩ = getStats ⟨[], [], [], []⟩ :=
  ⟨(deleted_excluded_from_search_and_stats encZero storeTwo "q" 1
      [] [] [] [] [] mdDel).1 _ (by decide),
   (deleted_excluded_from_search_and_stats encZero storeTwo "q" 1
      [] [] [] [] [] mdDel).2 (by decide)⟩

/-- C5: against an initialized store, search requests
`min(top_k * 3, ntotal)` candidates, walks them in ascending distance
order, keeps the first `top_k` non-deleted ones, and every result
carries the raw squared-L2 distance of its stored vector as score. -/
theorem search_overfetch_filter_topk (encode : String → List Int)
    (s : RetrieverState) (query : String) (topK : Nat)
    (vecs : List (List Int)) (h : s.index = some vecs) :
    (faissSearch vecs (encode query) (min (topK * 3) vecs.length)).length
        = min (topK * 3) vecs.length ∧
    List.Sorted distLE
      (faissSearch vecs (encode query) (min (topK * 3) vecs.length)) ∧
    searchR encode s query topK =
      (((faissSearch vecs (encode query) (min (topK * 3) vecs.length)).filter
        (fun c => decide (keepCand s.metadata c))).take topK).map
          (mkResult s.metadata s.texts) ∧
    (∀ r ∈ searchR encode s query topK, ∃ i, i < vecs.length ∧
        r.score = sqDistL2 (encode query) (vecs.getD i []) ∧
        r.metadata = s.metadata.getD i default ∧ r.text = s.texts.getD i "") := by
  refine ⟨?_, faissSearch_sorted vecs (encode query) _,
    searchR_eq encode s query topK vecs h, ?_⟩
  · rw [faissSearch_length, Nat.min_assoc, Nat.min_self]
  · intro r hr
    rcases mem_searchR_keepCand encode s query topK vecs h r hr with
      ⟨c, hc, _, hrc⟩
    rcases faissSearch_mem vecs (encode query) _ c hc with ⟨hlt, hdist⟩
    exact ⟨c.1, hlt, by rw [hrc, mkResult, hdist], by rw [hrc, mkResult],
      by rw [hrc, mkResult]⟩

/-- Closed witness for C5 at a concrete two-vector store with `top_k = 1`. -/
theorem search_overfetch_witness :
    (faissSearch [[0], [1]] (encZero "q") (min (1 * 3) 2)).length = min (1 * 3) 2 ∧
    List.Sorted distLE (faissSearch [[0], [1]] (encZero "q") (min (1 * 3) 2)) ∧
    searchR encZero storeTwo "q" 1 =
      (((faissSearch [[0], [1]] (encZero "q") (min (1 * 3) 2)).filter
        (fun c => decide (keepCand storeTwo.metadata c))).take 1).map
          (mkResult storeTwo.metadata storeTwo.texts) :=
  ⟨(search_overfetch_filter_topk encZero storeTwo "q" 1 [[0], [1]] rfl).1,
   (search_overfetch_filter_topk encZero storeTwo "q" 1 [[0], [1]] rfl).2.1,
   (search_overfetch_filter_topk encZero storeTwo "q" 1 [[0], [1]] rfl).2.2.1⟩

/-- C7: search on a store with zero active vectors — uninitialized
(`self.index is None`) or fully soft-deleted — returns the empty list. -/
theorem empty_store_search_returns_nil (encode : String → List Int)
    (s : RetrieverState) (query : String) (topK : Nat) :
    (s.index = none → searchR encode s query topK = []) ∧
    (activeCount s.metadata = 0 → searchR encode s query topK = []) := by
  constructor
  · intro h
    simp [searchR, h]
  · intro h
    cases hidx : s.index with
    | none => simp [searchR, hidx]
    | some vecs =>
      rw [searchR_eq encode s query topK vecs hidx]
      have hfil : (faissSearch vecs (encode query)
          (min (topK * 3) vecs.length)).filter
            (fun c => decide (keepCand s.metadata c)) = [] := by
        apply List.filter_eq_nil_iff.mpr
        intro c _
        simp only [decide_eq_true_eq]
        intro hk
        have hmem : s.metadata.getD c.1 default ∈ s.metadata := by
          rw [List.getD_eq_getElem _ _ hk.1]
          exact List.getElem_mem hk.1
        have hall := (List.countP_eq_zero.mp h) _ hmem
        refine absurd ?_ hall
        show decide (¬((s.metadata.getD c.1 default).deleted = true)) = true
        rw [hk.2]
        decide
      rw [hfil]
      simp

/-- Closed witness for C7: an uninitialized store and a store whose only
entry is soft-deleted. -/
theorem empty_store_search_witness :
    searchR encZero ⟨none, [], []⟩ "q" 5 = [] ∧
    searchR encZero ⟨some [[0]], [mdDel], ["a"]⟩ "q" 5 = [] :=
  ⟨(empty_store_search_returns_nil encZero ⟨none, [], []⟩ "q" 5).1 rfl,
   (empty_store_search_returns_nil encZero ⟨some [[0]], [mdDel], ["a"]⟩ "q" 5).2
     (by decide)⟩

/-! ### Change detection -/

/-- C3: `_get_file_status` classifies from the recorded hash — no record
means `("new", process)`, a differing record means `("modified",
process)`, an identical record means `("unchanged", skip)`. -/
theorem file_status_classification (s : IndexerState) (path fileHash : String) :
    (getFileStatus s path fileHash).1 =
      match getExistingHash s path with
      | none => ("new", false)
      | some existing =>
        if existing = fileHash then ("unchanged", true)
        else ("modified", false) := by
  unfold getFileStatus
  cases getExistingHash s path with
  | none => rfl
  | some existing =>
    by_cases hx : existing = fileHash
    · simp [hx]
    · simp [hx]

/-! ### Batched encoding and the append path -/

theorem chunkList_flatten (bs : Nat) :
    ∀ l : List String, (chunkList bs l).flatten = l
  | [] => by simp [chunkList]
  | x :: xs => by
    rw [show chunkList bs (x :: xs) =
        (x :: xs.take (bs - 1)) :: chunkList bs (xs.drop (bs - 1)) from by
      simp [chunkList]]
    rw [List.flatten_cons, chunkList_flatten bs (xs.drop (bs - 1))]
    simp [List.take_append_drop]
termination_by l => l.length
decreasing_by simp [List.length_drop]; omega

theorem encodeInBatches_length (encodeBatch : List String → List (List Int))
    (bs : Nat) (texts : List String)
    (henc : ∀ ts, (encodeBatch ts).length = ts.length) :
    (encodeInBatches encodeBatch bs texts).length = texts.length := by
  unfold encodeInBatches
  have haux : ∀ L : List (List String),
      ((L.map encodeBatch).flatten).length = (L.flatten).length := by
    intro L
    induction L with
    | nil => simp
    | cons b L ih => simp [List.flatten_cons, List.length_append, henc, ih]
  rw [haux, chunkList_flatten]

/-- C1: appending a batch of documents grows the vector index, the
metadata array and the texts array by the same count, so alignment is
preserved; loading artifacts written by `_save` restores the state
exactly, and loading with no index artifact yields an aligned (empty)
store. -/
theorem alignment_after_append_and_load
    (encodeBatch : List String → List (List Int)) (bs : Nat)
    (s : IndexerState) (d : Disk) (docs : List Document)
    (henc : ∀ ts, (encodeBatch ts).length = ts.length)
    (ha : aligned s) :
    aligned (addDocumentsToIndex encodeBatch bs s d docs).1 ∧
    (∀ t : IndexerState, loadIndexer (saveState t) = some t) ∧
    (∀ d2 : Disk, d2.index_file = none →
      ∀ t, loadIndexer d2 = some t → aligned t) := by
  refine ⟨?_, fun t => rfl, ?_⟩
  · by_cases hd : docs = []
    · subst hd
      simpa [addDocumentsToIndex] using ha
    · have hcond : ¬(docs.isEmpty = true) := fun hc => hd (List.isEmpty_iff.mp hc)
      unfold addDocumentsToIndex
      rw [if_neg hcond]
      constructor
      · simp [aligned, List.length_append,
          encodeInBatches_length encodeBatch bs _ henc, ha.1]
      · simp [aligned, List.length_append, ha.2]
  · intro d2 hnone t hload
    simp only [loadIndexer, hnone] at hload
    rw [Option.some_inj] at hload
    rw [← hload]
    exact ⟨rfl, rfl⟩

/-- Closed witness for C1 at a one-document append onto the empty
store. -/
theorem alignment_witness :
    aligned (addDocumentsToIndex encBatchZero 64 ⟨[], [], [], []⟩
      ⟨none, none, none, none⟩ [⟨"t", mdLive⟩]).1 :=
  (alignment_after_append_and_load encBatchZero 64 ⟨[], [], [], []⟩
    ⟨none, none, none, none⟩ [⟨"t", mdLive⟩]
    (fun ts => by simp [encBatchZero]) ⟨rfl, rfl⟩).1

/-! ### Load behaviour (C8) -/

/-- C8 counterexample: with `index.faiss` absent but `file_hashes.pkl`
present on disk, `DocumentIndexer.__init__` still loads the recorded
hashes — the store is NOT initialized with an empty hash record. -/
theorem load_missing_index_keeps_hashes_cex :
    (loadIndexer ⟨none, none, none, some [("a", "h")]⟩).map
        IndexerState.file_hashes = some [("a", "h")] ∧
    some [("a", "h")] ≠ some ([] : List (String × String)) :=
  ⟨rfl, by decide⟩

/-- C8 amended: if the index artifact is absent, load initializes empty
vectors/metadata/texts and does not fail, while the hash record is read
from its own artifact (empty only when that artifact is also absent);
the retriever initializes `index = None` with empty arrays; artifacts
written together by `_save` are all read back. -/
theorem load_missing_index_initializes_empty (d : Disk) (s : IndexerState)
    (hnone : d.index_file = none) :
    loadIndexer d = some ⟨[], [], [], d.file_hashes_file.getD []⟩ ∧
    loadRetriever d = some ⟨none, [], []⟩ ∧
    loadIndexer (saveState s) = some s := by
  refine ⟨?_, ?_, rfl⟩
  · simp [loadIndexer, hnone]
  · simp [loadRetriever, hnone]

/-- Closed witness for the amended C8. -/
theorem load_missing_index_witness :
    loadIndexer ⟨none, none, none, some [("a", "h")]⟩ =
      some ⟨[], [], [], [("a", "h")]⟩ ∧
    loadRetriever ⟨none, none, none, some [("a", "h")]⟩ =
      some ⟨none, [], []⟩ :=
  ⟨(load_missing_index_initializes_empty ⟨none, none, none, some [("a", "h")]⟩
      ⟨[], [], [], []⟩ rfl).1,
   (load_missing_index_initializes_empty ⟨none, none, none, some [("a", "h")]⟩
      ⟨[], [], [], []⟩ rfl).2.1⟩

/-! ### Append count behaviour (C9) -/

/-- C9 counterexample: `_add_documents_to_index` performs no count
check.  An embedding batch with one extra vector grows the FAISS index
by 2 while metadata and texts grow by 1, and this misaligned state is
persisted rather than the operation failing. -/
theorem append_mismatch_persisted_cex :
    (addDocumentsToIndex encBatchExtra 64 ⟨[], [], [], []⟩
        ⟨none, none, none, none⟩ [⟨"t", mdLive⟩]).1.index.length = 2 ∧
    (addDocumentsToIndex encBatchExtra 64 ⟨[], [], [], []⟩
        ⟨none, none, none, none⟩ [⟨"t", mdLive⟩]).1.metadata.length = 1 ∧
    (addDocumentsToIndex encBatchExtra 64 ⟨[], [], [], []⟩
        ⟨none, none, none, none⟩ [⟨"t", mdLive⟩]).2.index_file
      = some [[0], [0]] ∧
    (addDocumentsToIndex encBatchExtra 64 ⟨[], [], [], []⟩
        ⟨none, none, none, none⟩ [⟨"t", mdLive⟩]).2.metadata_file
      = some [mdLive] := by
  simp [addDocumentsToIndex, encodeInBatches, chunkList, encBatchExtra,
    saveState]

/-- C9 amended: the append derives metadata and texts from the single
documents list and the vectors from the embedding collaborator; under
the collaborator's one-vector-per-text contract all three stores grow by
exactly `len(documents)` (a count mismatch cannot arise at this
interface), and the persisted artifacts are those of the grown state.
No runtime mismatch check exists. -/
theorem append_grows_stores_equally
    (encodeBatch : List String → List (List Int)) (bs : Nat)
    (s : IndexerState) (d : Disk) (docs : List Document)
    (henc : ∀ ts, (encodeBatch ts).length = ts.length) :
    (addDocumentsToIndex encodeBatch bs s d docs).1.index.length
        = s.index.length + docs.length ∧
    (addDocumentsToIndex encodeBatch bs s d docs).1.metadata.length
        = s.metadata.length + docs.length ∧
    (addDocumentsToIndex encodeBatch bs s d docs).1.texts.length
        = s.texts.length + docs.length ∧
    (docs ≠ [] → (addDocumentsToIndex encodeBatch bs s d docs).2
        = saveState (addDocumentsToIndex encodeBatch bs s d docs).1) := by
  by_cases hd : docs = []
  · subst hd
    simp [addDocumentsToIndex]
  · have hcond : ¬(docs.isEmpty = true) := fun hc => hd (List.isEmpty_iff.mp hc)
    unfold addDocumentsToIndex
    rw [if_neg hcond]
    refine ⟨?_, ?_, ?_, fun _ => rfl⟩
    · simp [List.length_append,
        encodeInBatches_length encodeBatch bs _ henc]
    · simp [List.length_append]
    · simp [List.length_append]

/-! ### Stale-chunk invalidation on modification (C4) -/

theorem mark_filter_active_nil (md : List ChunkMetadata) (p : String) :
    (markFileChunksDeleted md p).filter
      (fun m => m.file_path = p ∧ m.deleted = false) = [] := by
  apply List.filter_eq_nil_iff.mpr
  intro m hm
  rcases List.mem_map.mp hm with ⟨m0, _, hmm⟩
  rw [← hmm]
  unfold markChunkDeleted
  by_cases hc : m0.file_path = p ∧ ¬ m0.deleted = true
  · rw [if_pos hc]
    simp
  · rw [if_neg hc]
    simp only [decide_eq_true_eq]
    intro hk
    exact hc ⟨hk.1, by simp [hk.2]⟩

theorem processSingleFile_docs (split : String → List String)
    (s : IndexerState) (path name ext content fileHash : String) :
    ∀ dc ∈ (processSingleFile split s path name ext content fileHash).1,
      dc.metadata.file_path = path ∧ dc.metadata.deleted = false ∧
      dc.metadata.hash = fileHash := by
  intro dc hdc
  simp only [processSingleFile] at hdc
  rcases List.mem_map.mp hdc with ⟨pr, _, hpr⟩
  rw [← hpr]
  exact ⟨rfl, rfl, rfl⟩

theorem addDocuments_metadata (encodeBatch : List String → List (List Int))
    (bs : Nat) (s : IndexerState) (d : Disk) (docs : List Document) :
    (addDocumentsToIndex encodeBatch bs s d docs).1.metadata
      = s.metadata ++ docs.map Document.metadata := by
  by_cases hd : docs = []
  · subst hd
    simp [addDocumentsToIndex]
  · have hcond : ¬(docs.isEmpty = true) := fun hc => hd (List.isEmpty_iff.mp hc)
    unfold addDocumentsToIndex
    rw [if_neg hcond]

/-- C4: when a file is classified as modified, every live chunk for its
path is flagged deleted before any new chunk is produced, and after the
new chunks are appended the active chunks for that path are exactly the
new generation, carrying the updated hash. -/
theorem modified_invalidates_before_new_chunks
    (split : String → List String)
    (encodeBatch : List String → List (List Int)) (bs : Nat)
    (s : IndexerState) (d : Disk)
    (p name ext content newHash oldHash : String)
    (hlk : getExistingHash s p = some oldHash)
    (hne : oldHash ≠ newHash) :
    (getFileStatus s p newHash).1 = ("modified", false) ∧
    ((getFileStatus s p newHash).2.metadata.filter
      (fun m => m.file_path = p ∧ m.deleted = false)) = [] ∧
    ((addDocumentsToIndex encodeBatch bs
        (processSingleFile split (getFileStatus s p newHash).2 p name ext content newHash).2 d
        (processSingleFile split (getFileStatus s p newHash).2 p name ext content newHash).1).1.metadata.filter
      (fun m => m.file_path = p ∧ m.deleted = false))
      = (processSingleFile split (getFileStatus s p newHash).2 p name ext content newHash).1.map
          Document.metadata ∧
    (∀ dc ∈ (processSingleFile split (getFileStatus s p newHash).2 p name ext content newHash).1,
      dc.metadata.hash = newHash ∧ dc.metadata.deleted = false) := by
  have hst : getFileStatus s p newHash =
      (("modified", false),
       { s with metadata := markFileChunksDeleted s.metadata p }) := by
    unfold getFileStatus
    rw [hlk]
    simp [hne]
  have hdocs := processSingleFile_docs split (getFileStatus s p newHash).2
    p name ext content newHash
  refine ⟨by rw [hst], by rw [hst]; exact mark_filter_active_nil s.metadata p,
    ?_, fun dc hdc => ⟨(hdocs dc hdc).2.2, (hdocs dc hdc).2.1⟩⟩
  rw [addDocuments_metadata, List.filter_append]
  have hmeta : (processSingleFile split (getFileStatus s p newHash).2
      p name ext content newHash).2.metadata = (getFileStatus s p newHash).2.metadata := rfl
  rw [hmeta, hst]
  rw [mark_filter_active_nil s.metadata p]
  rw [List.nil_append]
  apply List.filter_eq_self.mpr
  intro m hm
  rcases List.mem_map.mp hm with ⟨dc, hdc, hmd⟩
  have h3 := hdocs dc hdc
  rw [← hmd]
  exact decide_eq_true ⟨h3.1, h3.2.1⟩

/-- Closed witness for C4 at a store holding one live chunk for file
`p` whose recorded hash differs from the new hash. -/
theorem modified_invalidates_witness :
    (getFileStatus ⟨[[0]], [mdLive], ["a"], [("p", "h")]⟩ "p" "h2").1
      = ("modified", false) ∧
    ((getFileStatus ⟨[[0]], [mdLive], ["a"], [("p", "h")]⟩ "p" "h2").2.metadata.filter
      (fun m => m.file_path = "p" ∧ m.deleted = false)) = [] :=
  ⟨(modified_invalidates_before_new_chunks (fun c => [c]) encBatchZero 64
      ⟨[[0]], [mdLive], ["a"], [("p", "h")]⟩ ⟨none, none, none, none⟩
      "p" "n" ".md" "c" "h2" "h" (by decide) (by decide)).1,
   (modified_invalidates_before_new_chunks (fun c => [c]) encBatchZero 64
      ⟨[[0]], [mdLive], ["a"], [("p", "h")]⟩ ⟨none, none, none, none⟩
      "p" "n" ".md" "c" "h2" "h" (by decide) (by decide)).2.1⟩

/-! ### Deletion detection (C6) and the blank-file frame property (C10) -/

theorem markChunkDeleted_file_path (path : String) (m : ChunkMetadata) :
    (markChunkDeleted path m).file_path = m.file_path := by
  unfold markChunkDeleted
  split
  · rfl
  · rfl

theorem markChunkDeleted_mono (path : String) (m : ChunkMetadata)
    (h : m.deleted = true) : (markChunkDeleted path m).deleted = true := by
  unfold markChunkDeleted
  split
  · rfl
  · exact h

theorem markChunkDeleted_sets (path : String) (m : ChunkMetadata)
    (hp : m.file_path = path) : (markChunkDeleted path m).deleted = true := by
  unfold markChunkDeleted
  by_cases hd : m.deleted = true
  · rw [if_neg (fun hc => hc.2 hd)]
    exact hd
  · rw [if_pos ⟨hp, hd⟩]

theorem mark_allDel_self (md : List ChunkMetadata) (k : String) :
    ∀ m ∈ markFileChunksDeleted md k, m.file_path = k → m.deleted = true := by
  intro m hm hp
  rcases List.mem_map.mp hm with ⟨m0, _, hm0⟩
  rw [← hm0] at hp ⊢
  exact markChunkDeleted_sets k m0 (by rw [← markChunkDeleted_file_path k m0]; exact hp)

theorem mark_allDel_preserved (md : List ChunkMetadata) (k k2 : String)
    (h : ∀ m ∈ md, m.file_path = k2 → m.deleted = true) :
    ∀ m ∈ markFileChunksDeleted md k, m.file_path = k2 → m.deleted = true := by
  intro m hm hp
  rcases List.mem_map.mp hm with ⟨m0, hm0mem, hm0⟩
  rw [← hm0] at hp ⊢
  rw [markChunkDeleted_file_path] at hp
  exact markChunkDeleted_mono k m0 (h m0 hm0mem hp)

theorem loop_allDel_preserved (current : List String) (k2 : String) :
    ∀ (keys : List String) (s : IndexerState) (c : Nat),
      (∀ m ∈ s.metadata, m.file_path = k2 → m.deleted = true) →
      ∀ m ∈ (processDeletedLoop keys current s c).1.metadata,
        m.file_path = k2 → m.deleted = true
  | [], s, c, h => h
  | k :: rest, s, c, h => by
    unfold processDeletedLoop
    by_cases hc : current.contains k = true
    · rw [if_pos hc]
      exact loop_allDel_preserved current k2 rest s c h
    · rw [if_neg hc]
      exact loop_allDel_preserved current k2 rest _ _
        (mark_allDel_preserved s.metadata k k2 h)

theorem loop_allDel_sets (current : List String) (k : String)
    (hcc : current.contains k = false) :
    ∀ (keys : List String) (s : IndexerState) (c : Nat), k ∈ keys →
      ∀ m ∈ (processDeletedLoop keys current s c).1.metadata,
        m.file_path = k → m.deleted = true
  | [], _, _, hmem => absurd hmem (List.not_mem_nil k)
  | k0 :: rest, s, c, hmem => by
    unfold processDeletedLoop
    by_cases hc : current.contains k0 = true
    · rw [if_pos hc]
      have hne : k ≠ k0 := fun he => by rw [he, hc] at hcc; cases hcc
      have hmem2 : k ∈ rest := by
        cases List.mem_cons.mp hmem with
        | inl h => exact absurd h hne
        | inr h => exact h
      exact loop_allDel_sets current k hcc rest s c hmem2
    · rw [if_neg hc]
      cases List.mem_cons.mp hmem with
      | inl he =>
        subst he
        exact loop_allDel_preserved current k rest _ _
          (mark_allDel_self s.metadata k)
      | inr hmem2 =>
        exact loop_allDel_sets current k hcc rest _ _ hmem2

theorem loop_count (current : List String) :
    ∀ (keys : List String) (s : IndexerState) (c : Nat),
      (processDeletedLoop keys current s c).2 =
        c + keys.countP (fun k => !(current.contains k))
  | [], s, c => by simp [processDeletedLoop]
  | k :: rest, s, c => by
    simp only [processDeletedLoop, List.countP_cons]
    cases hc : current.contains k
    · rw [if_neg (by decide : ¬(false = true)),
        loop_count current rest _ (c + 1),
        if_pos (by decide : (!false) = true)]
      omega
    · rw [if_pos (by decide : (true = true)),
        loop_count current rest s c,
        if_neg (by decide : ¬((!true) = true))]
      omega

theorem delKey_sublist (k : String) :
    ∀ d : List (String × String), (delKey d k).Sublist d
  | [] => List.Sublist.refl []
  | kv :: rest => by
    unfold delKey
    by_cases hc : kv.1 = k
    · rw [if_pos hc]
      exact (List.Sublist.refl rest).cons kv
    · rw [if_neg hc]
      exact (delKey_sublist k rest).cons₂ kv

theorem keyCount_cons (kv : String × String) (rest : List (String × String))
    (k : String) :
    keyCount (kv :: rest) k = keyCount rest k + if kv.1 = k then 1 else 0 := by
  unfold keyCount
  rw [List.countP_cons]
  by_cases hc : kv.1 = k
  · rw [if_pos (decide_eq_true hc), if_pos hc]
  · rw [if_neg (by simp [hc]), if_neg hc]

theorem keyCount_delKey_self (k : String) :
    ∀ d : List (String × String), keyCount d k ≤ 1 →
      keyCount (delKey d k) k = 0
  | [], _ => rfl
  | kv :: rest, hle => by
    rw [keyCount_cons] at hle
    unfold delKey
    by_cases hc : kv.1 = k
    · rw [if_pos hc]
      rw [if_pos hc] at hle
      omega
    · rw [if_neg hc]
      rw [if_neg hc] at hle
      rw [keyCount_cons, if_neg hc]
      have hrec := keyCount_delKey_self k rest (by omega)
      omega

theorem lookupHash_eq_none (k : String) :
    ∀ d : List (String × String), keyCount d k = 0 → lookupHash d k = none
  | [], _ => rfl
  | kv :: rest, h0 => by
    rw [keyCount_cons] at h0
    by_cases hc : kv.1 = k
    · rw [if_pos hc] at h0
      omega
    · rw [if_neg hc] at h0
      unfold lookupHash
      rw [if_neg hc]
      exact lookupHash_eq_none k rest (by omega)

theorem keyCount_sublist (k : String) {d1 d2 : List (String × String)}
    (h : d1.Sublist d2) : keyCount d1 k ≤ keyCount d2 k :=
  List.Sublist.countP_le _ h

theorem loop_hashes_sublist (current : List String) :
    ∀ (keys : List String) (s : IndexerState) (c : Nat),
      (processDeletedLoop keys current s c).1.file_hashes.Sublist s.file_hashes
  | [], s, c => List.Sublist.refl _
  | k :: rest, s, c => by
    unfold processDeletedLoop
    by_cases hc : current.contains k = true
    · rw [if_pos hc]
      exact loop_hashes_sublist current rest s c
    · rw [if_neg hc]
      exact (loop_hashes_sublist current rest _ _).trans
        (delKey_sublist k s.file_hashes)

theorem loop_lookup_none (current : List String) (k : String)
    (hcc : current.contains k = false) :
    ∀ (keys : List String) (s : IndexerState) (c : Nat),
      keyCount s.file_hashes k ≤ 1 → k ∈ keys →
      lookupHash (processDeletedLoop keys current s c).1.file_hashes k = none
  | [], _, _, _, hmem => absurd hmem (List.not_mem_nil k)
  | k0 :: rest, s, c, hle, hmem => by
    unfold processDeletedLoop
    by_cases hc : current.contains k0 = true
    · rw [if_pos hc]
      have hne : k ≠ k0 := fun he => by rw [he, hc] at hcc; cases hcc
      have hmem2 : k ∈ rest := by
        cases List.mem_cons.mp hmem with
        | inl h => exact absurd h hne
        | inr h => exact h
      exact loop_lookup_none current k hcc rest s c hle hmem2
    · rw [if_neg hc]
      by_cases hk : k = k0
      · subst hk
        have hzero : keyCount (delKey s.file_hashes k) k = 0 :=
          keyCount_delKey_self k s.file_hashes hle
        apply lookupHash_eq_none
        have hsub := keyCount_sublist k
          (loop_hashes_sublist current rest
            { s with metadata := markFileChunksDeleted s.metadata k,
                     file_hashes := delKey s.file_hashes k } (c + 1))
        simp only at hsub
        omega
      · have hmem2 : k ∈ rest := by
          cases List.mem_cons.mp hmem with
          | inl h => exact absurd h hk
          | inr h => exact h
        have hle2 : keyCount (delKey s.file_hashes k0) k ≤ 1 :=
          le_trans (keyCount_sublist k (delKey_sublist k0 s.file_hashes)) hle
        exact loop_lookup_none current k hcc rest _ (c + 1) hle2 hmem2

theorem keyCount_le_one_of_nodup (k : String) :
    ∀ d : List (String × String), (d.map Prod.fst).Nodup → keyCount d k ≤ 1
  | [], _ => by simp [keyCount]
  | kv :: rest, hnd => by
    rw [List.map_cons, List.nodup_cons] at hnd
    rw [keyCount_cons]
    by_cases hc : kv.1 = k
    · rw [if_pos hc]
      have hzero : keyCount rest k = 0 := by
        apply List.countP_eq_zero.mpr
        intro kv2 hkv2
        simp only [decide_eq_true_eq]
        intro he
        exact hnd.1 (by rw [hc, ← he]; exact List.mem_map_of_mem Prod.fst hkv2)
      omega
    · rw [if_neg hc]
      have := keyCount_le_one_of_nodup k rest hnd.2
      omega

/-- C6: after `_process_deleted_files`, every tracked file path absent
from the current scan has all of its chunks marked deleted and its
hash-record entry removed, and the run's deleted count is exactly the
number of such paths. -/
theorem deleted_files_marked_and_untracked (s : IndexerState)
    (current : List String)
    (hnodup : (s.file_hashes.map Prod.fst).Nodup) :
    (processDeletedFiles s current).2 =
      (s.file_hashes.map Prod.fst).countP (fun k => !(current.contains k)) ∧
    (∀ k, k ∈ s.file_hashes.map Prod.fst → current.contains k = false →
      (∀ m ∈ (processDeletedFiles s current).1.metadata,
        m.file_path = k → m.deleted = true) ∧
      lookupHash (processDeletedFiles s current).1.file_hashes k = none) := by
  refine ⟨?_, fun k hk hcc => ⟨?_, ?_⟩⟩
  · rw [processDeletedFiles, loop_count, Nat.zero_add]
  · exact loop_allDel_sets current k hcc (s.file_hashes.map Prod.fst) s 0 hk
  · exact loop_lookup_none current k hcc (s.file_hashes.map Prod.fst) s 0
      (keyCount_le_one_of_nodup k s.file_hashes hnodup) hk

/-- Closed witness for C6: a store tracking files `a` and `b` where only
`b` is still present in the scan. -/
theorem deleted_files_witness :
    (processDeletedFiles
        ⟨[], [mdLive], ["a"], [("a", "h1"), ("b", "h2")]⟩ ["b"]).2 =
      ([("a", "h1"), ("b", "h2")].map Prod.fst).countP
        (fun k => !((["b"] : List String).contains k)) ∧
    lookupHash (processDeletedFiles
        ⟨[], [mdLive], ["a"], [("a", "h1"), ("b", "h2")]⟩ ["b"]).1.file_hashes
      "a" = none :=
  ⟨(deleted_files_marked_and_untracked
      ⟨[], [mdLive], ["a"], [("a", "h1"), ("b", "h2")]⟩ ["b"] (by decide)).1,
   ((deleted_files_marked_and_untracked
      ⟨[], [mdLive], ["a"], [("a", "h1"), ("b", "h2")]⟩ ["b"] (by decide)).2
      "a" (by decide) (by decide)).2⟩

theorem lookupHash_cons (kv : String × String)
    (rest : List (String × String)) (p : String) :
    lookupHash (kv :: rest) p =
      if kv.1 = p then some kv.2 else lookupHash rest p := rfl

theorem lookupHash_delKey_ne (k0 p : String) (hne : k0 ≠ p) :
    ∀ d : List (String × String),
      lookupHash (delKey d k0) p = lookupHash d p
  | [] => rfl
  | kv :: rest => by
    unfold delKey
    by_cases hc : kv.1 = k0
    · rw [if_pos hc, lookupHash_cons, if_neg (by rw [hc]; exact hne)]
    · rw [if_neg hc, lookupHash_cons, lookupHash_cons]
      by_cases hp : kv.1 = p
      · rw [if_pos hp, if_pos hp]
      · rw [if_neg hp, if_neg hp]
        exact lookupHash_delKey_ne k0 p hne rest

theorem loop_lookup_mem (current : List String) (p : String)
    (hcp : current.contains p = true) :
    ∀ (keys : List String) (s : IndexerState) (c : Nat),
      lookupHash (processDeletedLoop keys current s c).1.file_hashes p
        = lookupHash s.file_hashes p
  | [], _, _ => rfl
  | k0 :: rest, s, c => by
    unfold processDeletedLoop
    by_cases hc : current.contains k0 = true
    · rw [if_pos hc]
      exact loop_lookup_mem current p hcp rest s c
    · rw [if_neg hc]
      rw [loop_lookup_mem current p hcp rest _ (c + 1)]
      have hne : k0 ≠ p := fun he => hc (by rw [he]; exact hcp)
      exact lookupHash_delKey_ne k0 p hne s.file_hashes

theorem filter_mark_path_ne (k p : String) (hk : k ≠ p)
    (md : List ChunkMetadata) :
    (markFileChunksDeleted md k).filter (fun m => m.file_path = p)
      = md.filter (fun m => m.file_path = p) := by
  unfold markFileChunksDeleted
  induction md with
  | nil => rfl
  | cons m md ih =>
    rw [List.map_cons, List.filter_cons, List.filter_cons]
    by_cases hp : m.file_path = p
    · have hid : markChunkDeleted k m = m := by
        unfold markChunkDeleted
        exact if_neg (fun hcc => hk (hcc.1.symm.trans hp))
      rw [hid, if_pos (decide_eq_true hp), if_pos (decide_eq_true hp), ih]
    · have hpath : (markChunkDeleted k m).file_path = m.file_path :=
        markChunkDeleted_file_path k m
      rw [if_neg (by simp [hpath, hp]), if_neg (by simp [hp]), ih]

theorem loop_metadata_filter (current : List String) (p : String)
    (hcp : current.contains p = true) :
    ∀ (keys : List String) (s : IndexerState) (c : Nat),
      (processDeletedLoop keys current s c).1.metadata.filter
          (fun m => m.file_path = p)
        = s.metadata.filter (fun m => m.file_path = p)
  | [], _, _ => rfl
  | k0 :: rest, s, c => by
    unfold processDeletedLoop
    by_cases hc : current.contains k0 = true
    · rw [if_pos hc]
      exact loop_metadata_filter current p hcp rest s c
    · rw [if_neg hc]
      rw [loop_metadata_filter current p hcp rest _ (c + 1)]
      have hne : k0 ≠ p := fun he => hc (by rw [he]; exact hcp)
      exact filter_mark_path_ne k0 p hne s.metadata

/-- C10: a previously indexed file whose content has become blank
(empty or whitespace-only) is skipped before hashing and classification,
but its path is still recorded in the scan; the deletion pass therefore
keeps its hash entry with the old hash, leaves the deletion flags of its
chunks untouched, and does not count it in the deleted count. -/
theorem blank_file_skipped_and_preserved
    (split : String → List String) (hashFn : String → String)
    (s : IndexerState) (currentFiles : List String) (stats : RunStats)
    (p name ext content oldHash : String)
    (hprev : lookupHash s.file_hashes p = some oldHash)
    (hblank : isBlank content = true) :
    scanFile split hashFn s currentFiles stats p name ext content
      = (s, currentFiles ++ [p], stats, []) ∧
    lookupHash (processDeletedFiles s (currentFiles ++ [p])).1.file_hashes p
      = some oldHash ∧
    (processDeletedFiles s (currentFiles ++ [p])).1.metadata.filter
        (fun m => m.file_path = p)
      = s.metadata.filter (fun m => m.file_path = p) ∧
    (processDeletedFiles s (currentFiles ++ [p])).2
      = (s.file_hashes.map Prod.fst).countP
          (fun k => !((currentFiles ++ [p]).contains k)) := by
  have hcp : (currentFiles ++ [p]).contains p = true := by simp
  refine ⟨?_, ?_, ?_, ?_⟩
  · unfold scanFile
    rw [if_pos hblank]
  · rw [processDeletedFiles, loop_lookup_mem _ p hcp, hprev]
  · rw [processDeletedFiles, loop_metadata_filter _ p hcp]
  · rw [processDeletedFiles, loop_count, Nat.zero_add]

/-- Closed witness for C10: a tracked file `p` with whitespace-only
content. -/
theorem blank_file_witness :
    scanFile (fun c => [c]) (fun _ => "H")
        ⟨[], [mdLive], ["a"], [("p", "h")]⟩ [] ⟨0, 0, 0, 0, 0, 0⟩
        "p" "n" ".md" " "
      = (⟨[], [mdLive], ["a"], [("p", "h")]⟩, [] ++ ["p"],
         ⟨0, 0, 0, 0, 0, 0⟩, []) ∧
    lookupHash (processDeletedFiles ⟨[], [mdLive], ["a"], [("p", "h")]⟩
        ([] ++ ["p"])).1.file_hashes "p" = some "h" :=
  ⟨(blank_file_skipped_and_preserved (fun c => [c]) (fun _ => "H")
      ⟨[], [mdLive], ["a"], [("p", "h")]⟩ [] ⟨0, 0, 0, 0, 0, 0⟩
      "p" "n" ".md" " " "h" (by decide) (by decide)).1,
   (blank_file_skipped_and_preserved (fun c => [c]) (fun _ => "H")
      ⟨[], [mdLive], ["a"], [("p", "h")]⟩ [] ⟨0, 0, 0, 0, 0, 0⟩
      "p" "n" ".md" " " "h" (by decide) (by decide)).2.1⟩

/-- Closed witness for the amended C9. -/
theorem append_grows_witness :
    (addDocumentsToIndex encBatchZero 64 ⟨[], [], [], []⟩
        ⟨none, none, none, none⟩ [⟨"t", mdLive⟩]).1.index.length = 0 + 1 ∧
    (addDocumentsToIndex encBatchZero 64 ⟨[], [], [], []⟩
        ⟨none, none, none, none⟩ [⟨"t", mdLive⟩]).1.metadata.length = 0 + 1 :=
  ⟨(append_grows_stores_equally encBatchZero 64 ⟨[], [], [], []⟩
      ⟨none, none, none, none⟩ [⟨"t", mdLive⟩]
      (fun ts => by simp [encBatchZero])).1,
   (append_grows_stores_equally encBatchZero 64 ⟨[], [], [], []⟩
      ⟨none, none, none, none⟩ [⟨"t", mdLive⟩]
      (fun ts => by simp [encBatchZero])).2.1⟩

end DocChat
